import Mathlib

/-!
Verification development for the adaptive quadtree mass-distribution core
(`quantum_check_final.py`): a spatial block tree holding exact rational
masses on its leaves, with aggregation (sum / scale / normalize), precision
("vantage") refinement, quadrant split / merge, neighbor detection and a
diffusive flow step.

Python `Fraction` is modelled as `ℚ`, Python `int` as `ℤ` (or `ℕ` for list
indices), Python lists as `List`, and in-place mutation of the tree as
functions returning the updated tree.  Python `//` and `%` are floor
division and floor modulus, modelled by `Int.fdiv` / `Int.fmod`.
-/

/-- Python class `BlockNode2D`: a block covering `[x_min..x_max] × [y_min..y_max]`.
`children is None` (a leaf) is the `leaf` constructor; a node with a list of
children is the `node` constructor.  Both carry `prob` and `vantage`,
exactly as the Python object does in either state. -/
inductive BlockNode2D : Type where
  | leaf (x_min x_max y_min y_max : ℤ) (prob : ℚ) (vantage : ℤ) : BlockNode2D
  | node (x_min x_max y_min y_max : ℤ) (prob : ℚ) (vantage : ℤ)
      (children : List BlockNode2D) : BlockNode2D

namespace BlockNode2D

def x_min : BlockNode2D → ℤ
  | .leaf a _ _ _ _ _ => a
  | .node a _ _ _ _ _ _ => a

def x_max : BlockNode2D → ℤ
  | .leaf _ a _ _ _ _ => a
  | .node _ a _ _ _ _ _ => a

def y_min : BlockNode2D → ℤ
  | .leaf _ _ a _ _ _ => a
  | .node _ _ a _ _ _ _ => a

def y_max : BlockNode2D → ℤ
  | .leaf _ _ _ a _ _ => a
  | .node _ _ _ a _ _ _ => a

def prob : BlockNode2D → ℚ
  | .leaf _ _ _ _ p _ => p
  | .node _ _ _ _ p _ _ => p

def vantage : BlockNode2D → ℤ
  | .leaf _ _ _ _ _ v => v
  | .node _ _ _ _ _ v _ => v

/-- Predicate `is_leaf`: the Python test `children is None`. -/
def is_leaf : BlockNode2D → Bool
  | .leaf _ _ _ _ _ _ => true
  | .node _ _ _ _ _ _ _ => false

def width (b : BlockNode2D) : ℤ := b.x_max - b.x_min + 1

def height (b : BlockNode2D) : ℤ := b.y_max - b.y_min + 1

def area (b : BlockNode2D) : ℤ := b.width * b.height

end BlockNode2D

mutual
/-- Function `sum_tree_2d`: lumps-coded sum of leaf probabilities.  An internal
node contributes only its children's sums, not its own `prob`. -/
def sum_tree_2d : BlockNode2D → ℚ
  | .leaf _ _ _ _ p _ => p
  | .node _ _ _ _ _ _ cs => sum_children_2d cs

/-- The loop `for c in node.children: s += sum_tree_2d(c)` starting at 0. -/
def sum_children_2d : List BlockNode2D → ℚ
  | [] => 0
  | c :: rest => sum_tree_2d c + sum_children_2d rest
end

/-- Function `refine_vantage_if_needed_2d`: if `prob < 1/vantage` (and `prob` is not
0 or 1), enlarge the vantage to `⌈1/prob⌉` computed via floor division with
a +1 correction, then force strict growth with `max (vantage+1)`.  Returns
the new vantage (the Python code mutates `block.vantage`). -/
def refine_vantage_if_needed_2d (prob : ℚ) (vantage : ℤ) : ℤ :=
  if prob = 0 ∨ prob = 1 then vantage
  else if prob < 1 / (vantage : ℚ) then
    let inv : ℚ := 1 / prob
    let q : ℤ := inv.num.fdiv (inv.den : ℤ)
    let new_v : ℤ := if inv.num.fmod (inv.den : ℤ) ≠ 0 then q + 1 else q
    max new_v (vantage + 1)
  else vantage

/-- Function `set_probability_2d`: assign a new `prob` then refine the vantage. -/
def set_probability_2d (b : BlockNode2D) (new_prob : ℚ) : BlockNode2D :=
  match b with
  | .leaf x0 x1 y0 y1 _ v =>
      .leaf x0 x1 y0 y1 new_prob (refine_vantage_if_needed_2d new_prob v)
  | .node x0 x1 y0 y1 _ v cs =>
      .node x0 x1 y0 y1 new_prob (refine_vantage_if_needed_2d new_prob v) cs

mutual
/-- Function `scale_tree_2_2d`: multiply each leaf's probability by `factor`, then
refine that leaf's vantage.  Internal nodes only recurse. -/
def scale_tree_2_2d : BlockNode2D → ℚ → BlockNode2D
  | .leaf x0 x1 y0 y1 p v, factor =>
      .leaf x0 x1 y0 y1 (p * factor)
        (refine_vantage_if_needed_2d (p * factor) v)
  | .node x0 x1 y0 y1 p v cs, factor =>
      .node x0 x1 y0 y1 p v (scale_children_2d cs factor)

def scale_children_2d : List BlockNode2D → ℚ → List BlockNode2D
  | [], _ => []
  | c :: rest, factor => scale_tree_2_2d c factor :: scale_children_2d rest factor
end

/-- Function `normalize_tree_2d`: if the total is positive and not 1, scale every
leaf by `1/total`; otherwise leave the tree untouched. -/
def normalize_tree_2d (t : BlockNode2D) : BlockNode2D :=
  let total := sum_tree_2d t
  if 0 < total ∧ total ≠ 1 then scale_tree_2_2d t ((1 : ℚ) / total) else t

mutual
/-- Function `get_leaves_2d`: collect all leaves, appending to the accumulator list
in traversal order (the Python code appends to the shared `leaves` list). -/
def get_leaves_2d : BlockNode2D → List BlockNode2D → List BlockNode2D
  | .leaf x0 x1 y0 y1 p v, acc => acc ++ [.leaf x0 x1 y0 y1 p v]
  | .node _ _ _ _ _ _ cs, acc => get_leaves_children_2d cs acc

def get_leaves_children_2d : List BlockNode2D → List BlockNode2D → List BlockNode2D
  | [], acc => acc
  | c :: rest, acc => get_leaves_children_2d rest (get_leaves_2d c acc)
end

/-- The Python call `get_leaves_2d(node)` with the default `leaves=None`,
which starts from a fresh empty list. -/
def get_leaves (t : BlockNode2D) : List BlockNode2D := get_leaves_2d t []

/-- The `mk_child` helper inside `split_block_2d`: builds the child only
when its range is non-empty on both axes. -/
def mk_child (x0 x1 y0 y1 : ℤ) (pr : ℚ) (vant : ℤ) : Option BlockNode2D :=
  if x0 ≤ x1 ∧ y0 ≤ y1 then some (.leaf x0 x1 y0 y1 pr vant) else none

/-- Function `split_block_2d`: quadrant-split a leaf if `area > 1`, giving each
surviving child `prob/4` and the parent's vantage; if more than one child
survives the node becomes internal with `prob = 0`, otherwise nothing
happens. -/
def split_block_2d (t : BlockNode2D) : BlockNode2D :=
  match t with
  | .node x0 x1 y0 y1 p v cs => .node x0 x1 y0 y1 p v cs
  | .leaf x0 x1 y0 y1 p v =>
      if (x1 - x0 + 1) * (y1 - y0 + 1) ≤ 1 then .leaf x0 x1 y0 y1 p v
      else
        let x_mid := (x0 + x1).fdiv 2
        let y_mid := (y0 + y1).fdiv 2
        let base_prob := p / 4
        let c1 := mk_child x0 x_mid y0 y_mid base_prob v
        let c2 := mk_child (x_mid + 1) x1 y0 y_mid base_prob v
        let c3 := mk_child x0 x_mid (y_mid + 1) y1 base_prob v
        let c4 := mk_child (x_mid + 1) x1 (y_mid + 1) y1 base_prob v
        let new_children := [c1, c2, c3, c4].reduceOption
        if 1 < new_children.length then .node x0 x1 y0 y1 0 v new_children
        else .leaf x0 x1 y0 y1 p v

/-- Function `merge_block_2d`: no-op on a leaf; otherwise sum the children's leaf
masses, store that sum as the node's own `prob`, and drop the children. -/
def merge_block_2d (t : BlockNode2D) : BlockNode2D :=
  match t with
  | .leaf x0 x1 y0 y1 p v => .leaf x0 x1 y0 y1 p v
  | .node x0 x1 y0 y1 _ v cs => .leaf x0 x1 y0 y1 (sum_children_2d cs) v

mutual
/-- Function `adaptive_split_merge_2d`: split a leaf whose mass reaches
`split_thresh` (when `area > 1`); on an internal node recurse into the
children first, then merge if the children's total mass is below
`merge_thresh`. -/
def adaptive_split_merge_2d : BlockNode2D → ℚ → ℚ → BlockNode2D
  | .leaf x0 x1 y0 y1 p v, split_thresh, _ =>
      if 1 < (x1 - x0 + 1) * (y1 - y0 + 1) ∧ split_thresh ≤ p then
        split_block_2d (.leaf x0 x1 y0 y1 p v)
      else .leaf x0 x1 y0 y1 p v
  | .node x0 x1 y0 y1 p v cs, split_thresh, merge_thresh =>
      let cs' := adaptive_children_2d cs split_thresh merge_thresh
      if sum_children_2d cs' < merge_thresh then
        merge_block_2d (.node x0 x1 y0 y1 p v cs')
      else .node x0 x1 y0 y1 p v cs'

def adaptive_children_2d : List BlockNode2D → ℚ → ℚ → List BlockNode2D
  | [], _, _ => []
  | c :: rest, st, mt =>
      adaptive_split_merge_2d c st mt :: adaptive_children_2d rest st mt
end

/-- Function `is_neighbor_2d`: blocks share an edge (contiguous on one axis with
overlapping ranges on the other). -/
def is_neighbor_2d (a b : BlockNode2D) : Bool :=
  let horiz_touch := a.x_max + 1 = b.x_min ∨ b.x_max + 1 = a.x_min
  let y_overlap := ¬(a.y_max < b.y_min ∨ b.y_max < a.y_min)
  let vert_touch := a.y_max + 1 = b.y_min ∨ b.y_max + 1 = a.y_min
  let x_overlap := ¬(a.x_max < b.x_min ∨ b.x_max < a.x_min)
  (horiz_touch ∧ y_overlap) ∨ (vert_touch ∧ x_overlap)

/-- The Python statement `neighbor_map[k].append(j)` on a list-of-lists state. -/
def append_neighbor (m : List (List ℕ)) (k j : ℕ) : List (List ℕ) :=
  m.set k (m.getD k [] ++ [j])

/-- The body of the inner loop of `find_neighbors_2d`: when blocks `i`
and `j` are neighbors, append `j` to row `i` and `i` to row `j`. -/
def nb_body (leaves : List BlockNode2D) (i : ℕ) (m : List (List ℕ)) (j : ℕ) :
    List (List ℕ) :=
  if is_neighbor_2d (leaves.getD i (.leaf 0 0 0 0 0 0))
      (leaves.getD j (.leaf 0 0 0 0 0 0)) then
    append_neighbor (append_neighbor m i j) j i
  else m

/-- Function `find_neighbors_2d`: for every pair `i < j`, if the blocks are
neighbors record `j` in row `i` and `i` in row `j`.  The double loop
`for i in range(n): for j in range(i+1, n)` is modelled by folds. -/
def find_neighbors_2d (leaves : List BlockNode2D) : List (List ℕ) :=
  let n := leaves.length
  (List.range n).foldl
    (fun m i => (List.range' (i + 1) (n - (i + 1))).foldl (nb_body leaves i) m)
    (List.replicate n [])

/-- The body of the main loop of `flow_step_2d` for index `i`: add the
remainder to entry `i`, then either share the outflow equally among the
neighbors, or (with no neighbors) reflect it back under `closed` boundary
and drop it under `open`. -/
def flow_body (old_probs : List ℚ) (neighbor_map : List (List ℕ))
    (alpha : ℚ) (boundary : String) (np : List ℚ) (i : ℕ) : List ℚ :=
  let p_i := old_probs.getD i 0
  let outflow := p_i * alpha
  let remainder := p_i - outflow
  let np := np.set i (np.getD i 0 + remainder)
  let nbrs := neighbor_map.getD i []
  if nbrs ≠ [] then
    let portion := outflow / (nbrs.length : ℚ)
    nbrs.foldl (fun np j => np.set j (np.getD j 0 + portion)) np
  else if boundary = "closed" then np.set i (np.getD i 0 + outflow)
  else np

mutual
/-- The final loop of `flow_step_2d`, `set_probability_2d(block,
new_probs[i])` over the leaves in traversal order: rebuild the tree,
consuming the list of new probabilities leaf by leaf. -/
def assign_probs_2d : BlockNode2D → List ℚ → BlockNode2D × List ℚ
  | .leaf x0 x1 y0 y1 p v, ps =>
      match ps with
      | [] => (.leaf x0 x1 y0 y1 p v, [])
      | q :: rest => (set_probability_2d (.leaf x0 x1 y0 y1 p v) q, rest)
  | .node x0 x1 y0 y1 p v cs, ps =>
      let r := assign_children_2d cs ps
      (.node x0 x1 y0 y1 p v r.1, r.2)

def assign_children_2d : List BlockNode2D → List ℚ → List BlockNode2D × List ℚ
  | [], ps => ([], ps)
  | c :: rest, ps =>
      let r := assign_probs_2d c ps
      let r' := assign_children_2d rest r.2
      (r.1 :: r'.1, r'.2)
end

/-- Function `flow_step_2d`: snapshot the leaf probabilities, compute the flowed
`new_probs` array with `flow_body` over every index, and write the results
back into the tree's leaves in order. -/
def flow_step_2d (root : BlockNode2D) (alpha : ℚ) (boundary : String) :
    BlockNode2D :=
  let leaves := get_leaves root
  let neighbor_map := find_neighbors_2d leaves
  let old_probs := leaves.map BlockNode2D.prob
  let n := leaves.length
  let new_probs :=
    (List.range n).foldl (flow_body old_probs neighbor_map alpha boundary)
      (List.replicate n 0)
  (assign_probs_2d root new_probs).1

mutual
/-- Modelled from the spec: `leaves_in_order()` is described as the
pre-order traversal of the tree visiting children in their fixed stored
order (bottom-left, bottom-right, top-left, top-right, as created by the
split).  This is the direct (accumulator-free) pre-order flattening, to be
compared with the source's accumulator-passing `get_leaves_2d`. -/
def leaves_in_order : BlockNode2D → List BlockNode2D
  | .leaf x0 x1 y0 y1 p v => [.leaf x0 x1 y0 y1 p v]
  | .node _ _ _ _ _ _ cs => leaves_in_order_children cs

/-- Pre-order flattening of a list of sibling subtrees, left to right. -/
def leaves_in_order_children : List BlockNode2D → List BlockNode2D
  | [] => []
  | c :: rest => leaves_in_order c ++ leaves_in_order_children rest
end

/-- Number of children of a node (`len(node.children)`, 0 for a leaf). -/
def num_children : BlockNode2D → ℕ
  | .leaf _ _ _ _ _ _ => 0
  | .node _ _ _ _ _ _ cs => cs.length

/-- Lexicographic `(x, y)` order on coordinate pairs: `a` is no greater
than `b`. -/
def lex_le (a b : ℤ × ℤ) : Prop := a.1 < b.1 ∨ (a.1 = b.1 ∧ a.2 ≤ b.2)

instance (a b : ℤ × ℤ) : Decidable (lex_le a b) := by
  unfold lex_le; infer_instance

/-- A leaf sequence is ascending by `(x_min, y_min)` when every element is
lexicographically no greater than the next. -/
def ascending_by_xy (l : List BlockNode2D) : Prop :=
  List.Chain' (fun a b => lex_le (a.x_min, a.y_min) (b.x_min, b.y_min)) l

/-- The vantage of the node reached from `t` by following the child
indices in `path` (`none` when no such node exists). -/
def vantage_at : BlockNode2D → List ℕ → Option ℤ
  | t, [] => some t.vantage
  | .leaf _ _ _ _ _ _, _ :: _ => none
  | .node _ _ _ _ _ _ cs, i :: p =>
      match cs.get? i with
      | some c => vantage_at c p
      | none => none

/-- The core operations of the module, as invoked on a tree: assign a
probability, scale, normalize, one flow step, split, merge, and the
adaptive split/merge pass. -/
inductive CoreOp : Type where
  | setProb (q : ℚ) : CoreOp
  | scaleBy (f : ℚ) : CoreOp
  | normalizeOp : CoreOp
  | flowOp (alpha : ℚ) (boundary : String) : CoreOp
  | splitOp : CoreOp
  | mergeOp : CoreOp
  | adaptiveOp (split_thresh merge_thresh : ℚ) : CoreOp

/-- Apply one core operation to a tree. -/
def apply_op : CoreOp → BlockNode2D → BlockNode2D
  | .setProb q, t => set_probability_2d t q
  | .scaleBy f, t => scale_tree_2_2d t f
  | .normalizeOp, t => normalize_tree_2d t
  | .flowOp a bd, t => flow_step_2d t a bd
  | .splitOp, t => split_block_2d t
  | .mergeOp, t => merge_block_2d t
  | .adaptiveOp st mt, t => adaptive_split_merge_2d t st mt

/-- Apply a sequence of core operations, first element first. -/
def apply_ops (ops : List CoreOp) (t : BlockNode2D) : BlockNode2D :=
  ops.foldl (fun t op => apply_op op t) t

/-- Tree `t'` dominates `t` on vantages: wherever both trees have a node at the
same child-index path, the vantage did not decrease. -/
def vantage_mono (t t' : BlockNode2D) : Prop :=
  ∀ (p : List ℕ) (v v' : ℤ),
    vantage_at t p = some v → vantage_at t' p = some v' → v ≤ v' 

/-! ### Basic lemmas -/

theorem refine_vantage_ge (q : ℚ) (v : ℤ) : v ≤ refine_vantage_if_needed_2d q v := by
  unfold refine_vantage_if_needed_2d
  split
  · exact le_refl v
  · split
    · exact le_trans (by omega) (le_max_right _ (v + 1))
    · exact le_refl v

mutual
theorem get_leaves_2d_eq : ∀ (t : BlockNode2D) (acc : List BlockNode2D),
    get_leaves_2d t acc = acc ++ leaves_in_order t
  | .leaf x0 x1 y0 y1 p v, acc => by
      simp [get_leaves_2d, leaves_in_order]
  | .node x0 x1 y0 y1 p v cs, acc => by
      simp [get_leaves_2d, leaves_in_order, get_leaves_children_2d_eq cs acc]

theorem get_leaves_children_2d_eq : ∀ (cs : List BlockNode2D) (acc : List BlockNode2D),
    get_leaves_children_2d cs acc = acc ++ leaves_in_order_children cs
  | [], acc => by simp [get_leaves_children_2d, leaves_in_order_children]
  | c :: rest, acc => by
      rw [get_leaves_children_2d, leaves_in_order_children,
        get_leaves_children_2d_eq rest, get_leaves_2d_eq c acc]
      simp
end

theorem get_leaves_eq_leaves_in_order (t : BlockNode2D) :
    get_leaves t = leaves_in_order t := by
  simp [get_leaves, get_leaves_2d_eq]

mutual
theorem sum_tree_2d_eq_leaves : ∀ (t : BlockNode2D),
    sum_tree_2d t = ((leaves_in_order t).map BlockNode2D.prob).sum
  | .leaf x0 x1 y0 y1 p v => by
      simp [sum_tree_2d, leaves_in_order, BlockNode2D.prob]
  | .node x0 x1 y0 y1 p v cs => by
      simp [sum_tree_2d, leaves_in_order, sum_children_2d_eq_leaves cs]

theorem sum_children_2d_eq_leaves : ∀ (cs : List BlockNode2D),
    sum_children_2d cs = ((leaves_in_order_children cs).map BlockNode2D.prob).sum
  | [] => by simp [sum_children_2d, leaves_in_order_children]
  | c :: rest => by
      rw [sum_children_2d, leaves_in_order_children,
        sum_tree_2d_eq_leaves c, sum_children_2d_eq_leaves rest]
      simp
end

mutual
theorem sum_scale_tree : ∀ (t : BlockNode2D) (f : ℚ),
    sum_tree_2d (scale_tree_2_2d t f) = sum_tree_2d t * f
  | .leaf x0 x1 y0 y1 p v, f => by
      simp [sum_tree_2d, scale_tree_2_2d]
  | .node x0 x1 y0 y1 p v cs, f => by
      simp [sum_tree_2d, scale_tree_2_2d, sum_scale_children cs f]

theorem sum_scale_children : ∀ (cs : List BlockNode2D) (f : ℚ),
    sum_children_2d (scale_children_2d cs f) = sum_children_2d cs * f
  | [], f => by simp [sum_children_2d, scale_children_2d]
  | c :: rest, f => by
      rw [scale_children_2d, sum_children_2d, sum_scale_tree c f,
        sum_scale_children rest f, sum_children_2d]
      ring
end

mutual
theorem leaves_scale_tree : ∀ (t : BlockNode2D) (f : ℚ),
    (leaves_in_order (scale_tree_2_2d t f)).map BlockNode2D.prob
      = ((leaves_in_order t).map BlockNode2D.prob).map (fun p => p * f)
  | .leaf x0 x1 y0 y1 p v, f => by
      simp [leaves_in_order, scale_tree_2_2d, BlockNode2D.prob]
  | .node x0 x1 y0 y1 p v cs, f => by
      simp [leaves_in_order, scale_tree_2_2d, leaves_scale_children cs f]

theorem leaves_scale_children : ∀ (cs : List BlockNode2D) (f : ℚ),
    (leaves_in_order_children (scale_children_2d cs f)).map BlockNode2D.prob
      = ((leaves_in_order_children cs).map BlockNode2D.prob).map (fun p => p * f)
  | [], f => by simp [leaves_in_order_children, scale_children_2d]
  | c :: rest, f => by
      rw [scale_children_2d, leaves_in_order_children, leaves_in_order_children]
      simp [leaves_scale_tree c f, leaves_scale_children rest f]
end

/-! ### List helper lemmas for the flow step -/

theorem sum_set_add (l : List ℚ) (j : ℕ) (x : ℚ) (h : j < l.length) :
    (l.set j (l.getD j 0 + x)).sum = l.sum + x := by
  induction l generalizing j with
  | nil => simp at h
  | cons a t ih =>
      cases j with
      | zero => simp [List.set]; ring
      | succ k =>
          have hk : k < t.length := by simpa using h
          simp only [List.set, List.getD_cons_succ, List.sum_cons]
          rw [ih k hk]
          ring

theorem getD_nonneg (l : List ℚ) (j : ℕ) (h : ∀ y ∈ l, 0 ≤ y) :
    0 ≤ l.getD j 0 := by
  by_cases hj : j < l.length
  · rw [List.getD_eq_getElem l 0 hj]
    exact h _ (l.getElem_mem hj)
  · rw [List.getD_eq_default l 0 (by omega)]

theorem set_add_nonneg (l : List ℚ) (j : ℕ) (x : ℚ)
    (h : ∀ y ∈ l, 0 ≤ y) (hx : 0 ≤ x) :
    ∀ y ∈ l.set j (l.getD j 0 + x), 0 ≤ y := by
  intro y hy
  rcases List.mem_or_eq_of_mem_set hy with h1 | h2
  · exact h y h1
  · subst h2
    exact add_nonneg (getD_nonneg l j h) hx

theorem inner_fold_length (nbrs : List ℕ) (np : List ℚ) (portion : ℚ) :
    (nbrs.foldl (fun a j => a.set j (a.getD j 0 + portion)) np).length
      = np.length := by
  induction nbrs generalizing np with
  | nil => rfl
  | cons j rest ih =>
      simp only [List.foldl_cons]
      rw [ih]
      exact List.length_set np j _

theorem inner_fold_sum (nbrs : List ℕ) (np : List ℚ) (portion : ℚ)
    (h : ∀ j ∈ nbrs, j < np.length) :
    (nbrs.foldl (fun a j => a.set j (a.getD j 0 + portion)) np).sum
      = np.sum + nbrs.length * portion := by
  induction nbrs generalizing np with
  | nil => simp
  | cons j rest ih =>
      have hj : j < np.length := h j (by simp)
      have hrest : ∀ k ∈ rest, k < (np.set j (np.getD j 0 + portion)).length := by
        intro k hk
        simpa using h k (by simp [hk])
      simp only [List.foldl_cons]
      rw [ih _ hrest, sum_set_add np j portion hj]
      simp only [List.length_cons]
      push_cast
      ring

theorem inner_fold_nonneg (nbrs : List ℕ) (np : List ℚ) (portion : ℚ)
    (h : ∀ y ∈ np, 0 ≤ y) (hp : 0 ≤ portion) :
    ∀ y ∈ nbrs.foldl (fun a j => a.set j (a.getD j 0 + portion)) np, 0 ≤ y := by
  induction nbrs generalizing np with
  | nil => exact h
  | cons j rest ih =>
      intro y hy
      exact ih _ (set_add_nonneg np j portion h hp) y hy

/-! ### Bounds on the neighbor map -/

theorem getD_list_bound (m : List (List ℕ)) (k n : ℕ)
    (h : ∀ l ∈ m, ∀ x ∈ l, x < n) : ∀ x ∈ m.getD k [], x < n := by
  by_cases hk : k < m.length
  · rw [List.getD_eq_getElem m [] hk]
    exact h _ (m.getElem_mem hk)
  · rw [List.getD_eq_default m [] (by omega)]
    simp

theorem append_neighbor_length (m : List (List ℕ)) (k j : ℕ) :
    (append_neighbor m k j).length = m.length :=
  List.length_set m k _

theorem append_neighbor_bound (m : List (List ℕ)) (k j n : ℕ)
    (h : ∀ l ∈ m, ∀ x ∈ l, x < n) (hj : j < n) :
    ∀ l ∈ append_neighbor m k j, ∀ x ∈ l, x < n := by
  intro l hl x hx
  rcases List.mem_or_eq_of_mem_set hl with h1 | h2
  · exact h l h1 x hx
  · subst h2
    rcases List.mem_append.1 hx with h3 | h4
    · exact getD_list_bound m k n h x h3
    · simp at h4
      omega

theorem nb_body_invariant (leaves : List BlockNode2D) (n i j : ℕ)
    (m : List (List ℕ)) (hm : m.length = n ∧ ∀ l ∈ m, ∀ x ∈ l, x < n)
    (hi : i < n) (hj : j < n) :
    (nb_body leaves i m j).length = n ∧
      ∀ l ∈ nb_body leaves i m j, ∀ x ∈ l, x < n := by
  unfold nb_body
  split
  · constructor
    · rw [append_neighbor_length, append_neighbor_length]
      exact hm.1
    · exact append_neighbor_bound _ j i n
        (append_neighbor_bound m i j n hm.2 hj) hi
  · exact hm

theorem inner_nb_fold_invariant (leaves : List BlockNode2D) (n i : ℕ)
    (js : List ℕ) (m : List (List ℕ))
    (hm : m.length = n ∧ ∀ l ∈ m, ∀ x ∈ l, x < n)
    (hi : i < n) (hjs : ∀ j ∈ js, j < n) :
    (js.foldl (nb_body leaves i) m).length = n ∧
      ∀ l ∈ js.foldl (nb_body leaves i) m, ∀ x ∈ l, x < n := by
  induction js generalizing m with
  | nil => exact hm
  | cons j rest ih =>
      simp only [List.foldl_cons]
      exact ih _ (nb_body_invariant leaves n i j m hm hi (hjs j (by simp)))
        (fun k hk => hjs k (by simp [hk]))

theorem outer_nb_fold_invariant (leaves : List BlockNode2D) (n : ℕ)
    (is : List ℕ) (m : List (List ℕ))
    (hm : m.length = n ∧ ∀ l ∈ m, ∀ x ∈ l, x < n)
    (his : ∀ i ∈ is, i < n) :
    ((is.foldl
        (fun m i => (List.range' (i + 1) (n - (i + 1))).foldl (nb_body leaves i) m)
        m).length = n) ∧
      ∀ l ∈ is.foldl
          (fun m i => (List.range' (i + 1) (n - (i + 1))).foldl (nb_body leaves i) m)
          m, ∀ x ∈ l, x < n := by
  induction is generalizing m with
  | nil => exact hm
  | cons i rest ih =>
      simp only [List.foldl_cons]
      refine ih _ ?_ (fun k hk => his k (by simp [hk]))
      refine inner_nb_fold_invariant leaves n i _ m hm (his i (by simp)) ?_
      intro j hj
      rw [List.mem_range'] at hj
      omega

theorem find_neighbors_2d_invariant (leaves : List BlockNode2D) :
    (find_neighbors_2d leaves).length = leaves.length ∧
      ∀ l ∈ find_neighbors_2d leaves, ∀ x ∈ l, x < leaves.length := by
  unfold find_neighbors_2d
  refine outer_nb_fold_invariant leaves leaves.length _ _ ⟨by simp, ?_⟩ ?_
  · intro l hl
    rw [List.eq_of_mem_replicate hl]
    simp
  · intro i hi
    exact List.mem_range.1 hi

/-! ### Mass bookkeeping of `flow_body` -/

theorem flow_body_length (old_probs : List ℚ) (nm : List (List ℕ))
    (alpha : ℚ) (boundary : String) (np : List ℚ) (i : ℕ) :
    (flow_body old_probs nm alpha boundary np i).length = np.length := by
  simp only [flow_body]
  split
  · rw [inner_fold_length]
    simp
  · split <;> simp

theorem flow_body_sum_closed (old_probs : List ℚ) (nm : List (List ℕ))
    (alpha : ℚ) (np : List ℚ) (n : ℕ)
    (hnp : np.length = n) (hi : i < n)
    (hnm : ∀ l ∈ nm, ∀ x ∈ l, x < n) :
    (flow_body old_probs nm alpha "closed" np i).sum
      = np.sum + old_probs.getD i 0 := by
  simp only [flow_body]
  split
  · rename_i hne
    rw [inner_fold_sum]
    · rw [sum_set_add np i _ (by omega)]
      have hlen : ((nm.getD i []).length : ℚ) ≠ 0 := by
        have h0 : nm.getD i [] ≠ [] := hne
        have h1 : 0 < (nm.getD i []).length := List.length_pos.2 h0
        exact_mod_cast Nat.pos_iff_ne_zero.1 h1
      have hcan : ((nm.getD i []).length : ℚ)
          * (old_probs.getD i 0 * alpha / ((nm.getD i []).length : ℚ))
          = old_probs.getD i 0 * alpha := by
        rw [mul_comm]
        exact div_mul_cancel₀ _ hlen
      rw [hcan]
      ring
    · intro j hj
      rw [List.length_set, hnp]
      exact getD_list_bound nm i n hnm j hj
  · simp only [if_true]
    rw [sum_set_add _ i _ (by rw [List.length_set]; omega),
      sum_set_add np i _ (by omega)]
    ring

theorem flow_body_sum_le (old_probs : List ℚ) (nm : List (List ℕ))
    (alpha : ℚ) (boundary : String) (np : List ℚ) (n : ℕ)
    (hnp : np.length = n) (hi : i < n)
    (hnm : ∀ l ∈ nm, ∀ x ∈ l, x < n)
    (hout : 0 ≤ old_probs.getD i 0 * alpha) :
    (flow_body old_probs nm alpha boundary np i).sum
      ≤ np.sum + old_probs.getD i 0 := by
  simp only [flow_body]
  split
  · rename_i hne
    rw [inner_fold_sum]
    · rw [sum_set_add np i _ (by omega)]
      have hlen : ((nm.getD i []).length : ℚ) ≠ 0 := by
        have h0 : nm.getD i [] ≠ [] := hne
        have h1 : 0 < (nm.getD i []).length := List.length_pos.2 h0
        exact_mod_cast Nat.pos_iff_ne_zero.1 h1
      have hcan : ((nm.getD i []).length : ℚ)
          * (old_probs.getD i 0 * alpha / ((nm.getD i []).length : ℚ))
          = old_probs.getD i 0 * alpha := by
        rw [mul_comm]
        exact div_mul_cancel₀ _ hlen
      rw [hcan]
      linarith
    · intro j hj
      rw [List.length_set, hnp]
      exact getD_list_bound nm i n hnm j hj
  · split
    · rw [sum_set_add _ i _ (by rw [List.length_set]; omega),
        sum_set_add np i _ (by omega)]
      linarith
    · rw [sum_set_add np i _ (by omega)]
      linarith

theorem flow_body_nonneg (old_probs : List ℚ) (nm : List (List ℕ))
    (alpha : ℚ) (boundary : String) (np : List ℚ) (i : ℕ)
    (hnp : ∀ y ∈ np, 0 ≤ y) (hold : 0 ≤ old_probs.getD i 0)
    (ha0 : 0 ≤ alpha) (ha1 : alpha ≤ 1) :
    ∀ y ∈ flow_body old_probs nm alpha boundary np i, 0 ≤ y := by
  simp only [flow_body]
  have hrem : 0 ≤ old_probs.getD i 0 - old_probs.getD i 0 * alpha := by
    have := mul_le_mul_of_nonneg_left ha1 hold
    linarith
  have hout : 0 ≤ old_probs.getD i 0 * alpha := mul_nonneg hold ha0
  have h1 : ∀ y ∈ np.set i (np.getD i 0 + (old_probs.getD i 0 - old_probs.getD i 0 * alpha)), 0 ≤ y :=
    set_add_nonneg np i _ hnp hrem
  split
  · exact inner_fold_nonneg _ _ _ h1 (div_nonneg hout (by positivity))
  · split
    · exact set_add_nonneg _ i _ h1 hout
    · exact h1

/-! ### The main flow loop -/

theorem flow_fold_length (old_probs : List ℚ) (nm : List (List ℕ))
    (alpha : ℚ) (boundary : String) (is : List ℕ) (np : List ℚ) :
    (is.foldl (flow_body old_probs nm alpha boundary) np).length
      = np.length := by
  induction is generalizing np with
  | nil => rfl
  | cons i rest ih =>
      simp only [List.foldl_cons]
      rw [ih, flow_body_length]

theorem flow_fold_sum_closed (old_probs : List ℚ) (nm : List (List ℕ))
    (alpha : ℚ) (n : ℕ) (hnm : ∀ l ∈ nm, ∀ x ∈ l, x < n)
    (is : List ℕ) (np : List ℚ) (hnp : np.length = n)
    (his : ∀ i ∈ is, i < n) :
    (is.foldl (flow_body old_probs nm alpha "closed") np).sum
      = np.sum + (is.map (fun i => old_probs.getD i 0)).sum := by
  induction is generalizing np with
  | nil => simp
  | cons i rest ih =>
      simp only [List.foldl_cons, List.map_cons, List.sum_cons]
      rw [ih _ (by rw [flow_body_length]; exact hnp)
          (fun k hk => his k (by simp [hk])),
        flow_body_sum_closed old_probs nm alpha np n hnp (his i (by simp)) hnm]
      ring

theorem flow_fold_sum_le (old_probs : List ℚ) (nm : List (List ℕ))
    (alpha : ℚ) (boundary : String) (n : ℕ)
    (hnm : ∀ l ∈ nm, ∀ x ∈ l, x < n)
    (hout : ∀ i : ℕ, 0 ≤ old_probs.getD i 0 * alpha)
    (is : List ℕ) (np : List ℚ) (hnp : np.length = n)
    (his : ∀ i ∈ is, i < n) :
    (is.foldl (flow_body old_probs nm alpha boundary) np).sum
      ≤ np.sum + (is.map (fun i => old_probs.getD i 0)).sum := by
  induction is generalizing np with
  | nil => simp
  | cons i rest ih =>
      simp only [List.foldl_cons, List.map_cons, List.sum_cons]
      calc (rest.foldl (flow_body old_probs nm alpha boundary)
              (flow_body old_probs nm alpha boundary np i)).sum
          ≤ (flow_body old_probs nm alpha boundary np i).sum
              + (rest.map (fun i => old_probs.getD i 0)).sum :=
            ih _ (by rw [flow_body_length]; exact hnp)
              (fun k hk => his k (by simp [hk]))
        _ ≤ np.sum + old_probs.getD i 0
              + (rest.map (fun i => old_probs.getD i 0)).sum := by
            have := flow_body_sum_le old_probs nm alpha boundary np n hnp
              (his i (by simp)) hnm (hout i)
            linarith
        _ = np.sum + (old_probs.getD i 0
              + (rest.map (fun i => old_probs.getD i 0)).sum) := by ring

theorem flow_fold_nonneg (old_probs : List ℚ) (nm : List (List ℕ))
    (alpha : ℚ) (boundary : String)
    (hold : ∀ i : ℕ, 0 ≤ old_probs.getD i 0)
    (ha0 : 0 ≤ alpha) (ha1 : alpha ≤ 1) (is : List ℕ) (np : List ℚ)
    (hnp : ∀ y ∈ np, 0 ≤ y) :
    ∀ y ∈ is.foldl (flow_body old_probs nm alpha boundary) np, 0 ≤ y := by
  induction is generalizing np with
  | nil => exact hnp
  | cons i rest ih =>
      simp only [List.foldl_cons]
      exact ih _ (flow_body_nonneg old_probs nm alpha boundary np i hnp
        (hold i) ha0 ha1)

theorem sum_map_getD_range (l : List ℚ) :
    ((List.range l.length).map (fun i => l.getD i 0)).sum = l.sum := by
  induction l with
  | nil => simp
  | cons a t ih =>
      rw [List.length_cons, List.range_succ_eq_map]
      simp only [List.map_cons, List.map_map, List.sum_cons,
        List.getD_cons_zero]
      have : (List.map ((fun i => (a :: t).getD i 0) ∘ Nat.succ) (List.range t.length))
          = List.map (fun i => t.getD i 0) (List.range t.length) := by
        apply List.map_congr_left
        intro i _
        simp
      rw [this, ih]

theorem sum_map_getD_range_of_eq (l : List ℚ) (n : ℕ) (h : n = l.length) :
    ((List.range n).map (fun i => l.getD i 0)).sum = l.sum := by
  subst h
  exact sum_map_getD_range l

/-! ### Writing the new probabilities back into the leaves -/

mutual
theorem assign_probs_2d_spec : ∀ (t : BlockNode2D) (ps : List ℚ),
    (leaves_in_order t).length ≤ ps.length →
    ps = ((leaves_in_order (assign_probs_2d t ps).1).map BlockNode2D.prob)
        ++ (assign_probs_2d t ps).2 ∧
      ((leaves_in_order (assign_probs_2d t ps).1).map BlockNode2D.prob).length
        = (leaves_in_order t).length
  | .leaf x0 x1 y0 y1 p v, ps => by
      intro hle
      match ps with
      | [] => simp [leaves_in_order] at hle
      | q :: rest =>
          simp [assign_probs_2d, set_probability_2d, leaves_in_order,
            BlockNode2D.prob]
  | .node x0 x1 y0 y1 p v cs, ps => by
      intro hle
      simp only [leaves_in_order] at hle ⊢
      simpa [assign_probs_2d, leaves_in_order]
        using assign_children_2d_spec cs ps hle

theorem assign_children_2d_spec : ∀ (cs : List BlockNode2D) (ps : List ℚ),
    (leaves_in_order_children cs).length ≤ ps.length →
    ps = ((leaves_in_order_children (assign_children_2d cs ps).1).map
          BlockNode2D.prob) ++ (assign_children_2d cs ps).2 ∧
      ((leaves_in_order_children (assign_children_2d cs ps).1).map
          BlockNode2D.prob).length = (leaves_in_order_children cs).length
  | [], ps => by
      intro _
      simp [assign_children_2d, leaves_in_order_children]
  | c :: rest, ps => by
      intro hle
      simp only [leaves_in_order_children, List.length_append] at hle
      obtain ⟨h1, h1l⟩ := assign_probs_2d_spec c ps (by omega)
      have hlen2 : (leaves_in_order_children rest).length
          ≤ (assign_probs_2d c ps).2.length := by
        have := congrArg List.length h1
        simp only [List.length_append] at this
        omega
      obtain ⟨h2, h2l⟩ := assign_children_2d_spec rest (assign_probs_2d c ps).2 hlen2
      constructor
      · simp only [assign_children_2d, leaves_in_order_children, List.map_append]
        rw [List.append_assoc, ← h2, ← h1]
      · simp only [assign_children_2d, leaves_in_order_children,
          List.map_append, List.length_append]
        omega
end

theorem assign_leaf_probs (t : BlockNode2D) (ps : List ℚ)
    (h : ps.length = (leaves_in_order t).length) :
    (leaves_in_order (assign_probs_2d t ps).1).map BlockNode2D.prob = ps := by
  obtain ⟨heq, hlen⟩ := assign_probs_2d_spec t ps (le_of_eq h.symm)
  have hrest : (assign_probs_2d t ps).2 = [] := by
    have := congrArg List.length heq
    simp only [List.length_append] at this
    have : (assign_probs_2d t ps).2.length = 0 := by omega
    exact List.eq_nil_of_length_eq_zero this
  rw [hrest, List.append_nil] at heq
  exact heq.symm

theorem assign_sum (t : BlockNode2D) (ps : List ℚ)
    (h : ps.length = (leaves_in_order t).length) :
    sum_tree_2d (assign_probs_2d t ps).1 = ps.sum := by
  rw [sum_tree_2d_eq_leaves, assign_leaf_probs t ps h]

theorem flow_step_2d_eq (root : BlockNode2D) (alpha : ℚ) (boundary : String) :
    flow_step_2d root alpha boundary =
      (assign_probs_2d root
        ((List.range (get_leaves root).length).foldl
          (flow_body ((get_leaves root).map BlockNode2D.prob)
            (find_neighbors_2d (get_leaves root)) alpha boundary)
          (List.replicate (get_leaves root).length 0))).1 := rfl

/-- C2: for every tree and every transfer fraction `alpha`, one flow step
with boundary mode `closed` leaves the tree's total mass (the sum of
`prob` over all leaves) exactly unchanged. -/
theorem flow_step_closed_conserves_mass (root : BlockNode2D) (alpha : ℚ) :
    sum_tree_2d (flow_step_2d root alpha "closed") = sum_tree_2d root := by
  rw [flow_step_2d_eq]
  have hleq := get_leaves_eq_leaves_in_order root
  obtain ⟨hnml, hnmb⟩ := find_neighbors_2d_invariant (get_leaves root)
  have hlen : ((List.range (get_leaves root).length).foldl
      (flow_body ((get_leaves root).map BlockNode2D.prob)
        (find_neighbors_2d (get_leaves root)) alpha "closed")
      (List.replicate (get_leaves root).length 0)).length
      = (leaves_in_order root).length := by
    rw [flow_fold_length, List.length_replicate, hleq]
  rw [assign_sum _ _ hlen,
    flow_fold_sum_closed _ _ alpha (get_leaves root).length hnmb _ _
      (by simp) (fun i hi => List.mem_range.1 hi)]
  have hol : ((get_leaves root).map BlockNode2D.prob).length
      = (get_leaves root).length := List.length_map _ _
  rw [← hol, sum_map_getD_range, sum_tree_2d_eq_leaves root, hleq]
  simp

/-- C5: for every tree whose leaf masses are all nonnegative and every
`alpha` with `0 ≤ alpha ≤ 1`, one flow step with boundary mode `open`
yields a total mass less than or equal to the total mass before. -/
theorem flow_step_open_mass_nonincreasing (root : BlockNode2D) (alpha : ℚ)
    (hnn : ∀ b ∈ get_leaves root, 0 ≤ b.prob)
    (h0 : 0 ≤ alpha) (h1 : alpha ≤ 1) :
    sum_tree_2d (flow_step_2d root alpha "open") ≤ sum_tree_2d root := by
  rw [flow_step_2d_eq]
  have hleq := get_leaves_eq_leaves_in_order root
  obtain ⟨hnml, hnmb⟩ := find_neighbors_2d_invariant (get_leaves root)
  have hlen : ((List.range (get_leaves root).length).foldl
      (flow_body ((get_leaves root).map BlockNode2D.prob)
        (find_neighbors_2d (get_leaves root)) alpha "open")
      (List.replicate (get_leaves root).length 0)).length
      = (leaves_in_order root).length := by
    rw [flow_fold_length, List.length_replicate, hleq]
  have hout : ∀ i : ℕ,
      0 ≤ ((get_leaves root).map BlockNode2D.prob).getD i 0 * alpha := by
    intro i
    refine mul_nonneg (getD_nonneg _ i ?_) h0
    intro y hy
    obtain ⟨b, hb, rfl⟩ := List.mem_map.1 hy
    exact hnn b hb
  rw [assign_sum _ _ hlen]
  have hle := flow_fold_sum_le ((get_leaves root).map BlockNode2D.prob)
    (find_neighbors_2d (get_leaves root)) alpha "open"
    (get_leaves root).length hnmb hout (List.range (get_leaves root).length)
    (List.replicate (get_leaves root).length 0) (by simp)
    (fun i hi => List.mem_range.1 hi)
  rw [sum_map_getD_range_of_eq ((get_leaves root).map BlockNode2D.prob)
    (get_leaves root).length (by simp)] at hle
  calc ((List.range (get_leaves root).length).foldl
        (flow_body ((get_leaves root).map BlockNode2D.prob)
          (find_neighbors_2d (get_leaves root)) alpha "open")
        (List.replicate (get_leaves root).length 0)).sum
      ≤ (List.replicate (get_leaves root).length (0 : ℚ)).sum
          + ((get_leaves root).map BlockNode2D.prob).sum := hle
    _ = sum_tree_2d root := by
        rw [sum_tree_2d_eq_leaves root, hleq]
        simp

/-- C10: the flow step preserves nonnegativity — if every leaf mass is
nonnegative and `0 ≤ alpha ≤ 1`, then after one flow step in either
boundary mode (`open` or `closed`) every leaf's mass is still
nonnegative. -/
theorem flow_step_preserves_nonneg (root : BlockNode2D) (alpha : ℚ)
    (boundary : String)
    (hbd : boundary = "open" ∨ boundary = "closed")
    (hnn : ∀ b ∈ get_leaves root, 0 ≤ b.prob)
    (h0 : 0 ≤ alpha) (h1 : alpha ≤ 1) :
    ∀ b ∈ get_leaves (flow_step_2d root alpha boundary), 0 ≤ b.prob := by
  intro b hb
  rw [flow_step_2d_eq, get_leaves_eq_leaves_in_order] at hb
  have hleq := get_leaves_eq_leaves_in_order root
  have hlen : ((List.range (get_leaves root).length).foldl
      (flow_body ((get_leaves root).map BlockNode2D.prob)
        (find_neighbors_2d (get_leaves root)) alpha boundary)
      (List.replicate (get_leaves root).length 0)).length
      = (leaves_in_order root).length := by
    rw [flow_fold_length, List.length_replicate, hleq]
  have hmem := List.mem_map_of_mem BlockNode2D.prob hb
  rw [assign_leaf_probs _ _ hlen] at hmem
  have hold : ∀ i : ℕ,
      0 ≤ ((get_leaves root).map BlockNode2D.prob).getD i 0 := by
    intro i
    refine getD_nonneg _ i ?_
    intro y hy
    obtain ⟨c, hc, rfl⟩ := List.mem_map.1 hy
    exact hnn c hc
  exact flow_fold_nonneg ((get_leaves root).map BlockNode2D.prob)
    (find_neighbors_2d (get_leaves root)) alpha boundary hold h0 h1
    (List.range (get_leaves root).length)
    (List.replicate (get_leaves root).length 0)
    (by intro y hy; rw [List.eq_of_mem_replicate hy]) _ hmem

/-! ### Normalize and merge -/

/-- C6: if the tree's total mass is positive and not exactly 1, normalize
multiplies every leaf's mass by `1/total` (it is exactly the scaling pass)
and the total afterwards is exactly 1; if the total is zero or exactly 1,
the tree is left completely unchanged. -/
theorem normalize_tree_2d_spec (t : BlockNode2D) :
    ((0 < sum_tree_2d t ∧ sum_tree_2d t ≠ 1) →
      normalize_tree_2d t = scale_tree_2_2d t (1 / sum_tree_2d t) ∧
      (leaves_in_order (normalize_tree_2d t)).map BlockNode2D.prob
        = ((leaves_in_order t).map BlockNode2D.prob).map
            (fun p => p * (1 / sum_tree_2d t)) ∧
      sum_tree_2d (normalize_tree_2d t) = 1) ∧
    ((sum_tree_2d t = 0 ∨ sum_tree_2d t = 1) → normalize_tree_2d t = t) := by
  constructor
  · intro h
    have h1 : normalize_tree_2d t = scale_tree_2_2d t (1 / sum_tree_2d t) := by
      simp only [normalize_tree_2d, if_pos h]
    refine ⟨h1, ?_, ?_⟩
    · rw [h1, leaves_scale_tree]
    · rw [h1, sum_scale_tree]
      have := h.1
      field_simp
  · intro h
    have hc : ¬(0 < sum_tree_2d t ∧ sum_tree_2d t ≠ 1) := by
      rcases h with h | h <;> simp [h]
    simp only [normalize_tree_2d, if_neg hc]

theorem normalize_of_sum_eq_one (u : BlockNode2D) (h : sum_tree_2d u = 1) :
    normalize_tree_2d u = u := by
  have hc : ¬(0 < sum_tree_2d u ∧ sum_tree_2d u ≠ 1) := by simp [h]
  simp only [normalize_tree_2d, if_neg hc]

/-- C7: normalize is idempotent — applying it twice produces exactly the
same tree (structure, leaf masses and vantages) as applying it once. -/
theorem normalize_tree_2d_idempotent (t : BlockNode2D) :
    normalize_tree_2d (normalize_tree_2d t) = normalize_tree_2d t := by
  by_cases h : 0 < sum_tree_2d t ∧ sum_tree_2d t ≠ 1
  · have h1 : normalize_tree_2d t = scale_tree_2_2d t (1 / sum_tree_2d t) := by
      simp only [normalize_tree_2d, if_pos h]
    have h2 : sum_tree_2d (normalize_tree_2d t) = 1 := by
      rw [h1, sum_scale_tree]
      have := h.1
      field_simp
    exact normalize_of_sum_eq_one _ h2
  · have h1 : normalize_tree_2d t = t := by
      simp only [normalize_tree_2d, if_neg h]
    rw [h1, h1]

/-- C8: merge applied to an internal node turns it into a leaf whose mass
equals the pre-merge recursive sum of the masses of all descendant leaves
(so the subtree's total mass is preserved exactly); merge applied to a
leaf is a no-op. -/
theorem merge_block_2d_spec (t : BlockNode2D) :
    (t.is_leaf = true → merge_block_2d t = t) ∧
    (t.is_leaf = false →
      (merge_block_2d t).is_leaf = true ∧
      (merge_block_2d t).prob = sum_tree_2d t ∧
      sum_tree_2d (merge_block_2d t) = sum_tree_2d t) := by
  cases t with
  | leaf x0 x1 y0 y1 p v =>
      simp [BlockNode2D.is_leaf, merge_block_2d]
  | node x0 x1 y0 y1 p v cs =>
      simp [BlockNode2D.is_leaf, merge_block_2d, BlockNode2D.prob, sum_tree_2d]

/-! ### Splitting -/

theorem int_fdiv_two_eq (a : ℤ) : a.fdiv 2 = a / 2 :=
  Int.fdiv_eq_ediv a (by norm_num)

theorem mid_ge (a b : ℤ) (h : a ≤ b) : a ≤ (a + b).fdiv 2 := by
  rw [int_fdiv_two_eq]
  omega

theorem mid_le (a b : ℤ) (h : a ≤ b) : (a + b).fdiv 2 ≤ b := by
  rw [int_fdiv_two_eq]
  omega

theorem mid_lt (a b : ℤ) (h : a < b) : (a + b).fdiv 2 + 1 ≤ b := by
  rw [int_fdiv_two_eq]
  omega

theorem mid_self (a : ℤ) : (a + a).fdiv 2 = a := by
  rw [int_fdiv_two_eq]
  omega

theorem split_eq_four (x0 x1 y0 y1 : ℤ) (p : ℚ) (v : ℤ)
    (hx : x0 < x1) (hy : y0 < y1) :
    split_block_2d (.leaf x0 x1 y0 y1 p v) =
      .node x0 x1 y0 y1 0 v
        [.leaf x0 ((x0 + x1).fdiv 2) y0 ((y0 + y1).fdiv 2) (p / 4) v,
         .leaf ((x0 + x1).fdiv 2 + 1) x1 y0 ((y0 + y1).fdiv 2) (p / 4) v,
         .leaf x0 ((x0 + x1).fdiv 2) ((y0 + y1).fdiv 2 + 1) y1 (p / 4) v,
         .leaf ((x0 + x1).fdiv 2 + 1) x1 ((y0 + y1).fdiv 2 + 1) y1 (p / 4) v] := by
  have harea : ¬((x1 - x0 + 1) * (y1 - y0 + 1) ≤ 1) := by
    have h4 : (2 : ℤ) * 2 ≤ (x1 - x0 + 1) * (y1 - y0 + 1) :=
      mul_le_mul (by omega) (by omega) (by omega) (by omega)
    omega
  have h1 := mid_ge x0 x1 (le_of_lt hx)
  have h2 := mid_lt x0 x1 hx
  have h3 := mid_ge y0 y1 (le_of_lt hy)
  have h4 := mid_lt y0 y1 hy
  simp [split_block_2d, mk_child, harea, h1, h2, h3, h4,
    List.reduceOption, mid_le x0 x1 (le_of_lt hx), mid_le y0 y1 (le_of_lt hy)]

theorem split_eq_two_tall (x0 y0 y1 : ℤ) (p : ℚ) (v : ℤ) (hy : y0 < y1) :
    split_block_2d (.leaf x0 x0 y0 y1 p v) =
      .node x0 x0 y0 y1 0 v
        [.leaf x0 x0 y0 ((y0 + y1).fdiv 2) (p / 4) v,
         .leaf x0 x0 ((y0 + y1).fdiv 2 + 1) y1 (p / 4) v] := by
  have harea : ¬((x0 - x0 + 1) * (y1 - y0 + 1) ≤ 1) := by
    have : (1 : ℤ) * 2 ≤ (x0 - x0 + 1) * (y1 - y0 + 1) :=
      mul_le_mul (by omega) (by omega) (by omega) (by omega)
    omega
  have h3 := mid_ge y0 y1 (le_of_lt hy)
  have h4 := mid_lt y0 y1 hy
  simp [split_block_2d, mk_child, harea, h3, h4, mid_self x0,
    List.reduceOption, mid_le y0 y1 (le_of_lt hy)]
  omega

theorem split_eq_two_wide (x0 x1 y0 : ℤ) (p : ℚ) (v : ℤ) (hx : x0 < x1) :
    split_block_2d (.leaf x0 x1 y0 y0 p v) =
      .node x0 x1 y0 y0 0 v
        [.leaf x0 ((x0 + x1).fdiv 2) y0 y0 (p / 4) v,
         .leaf ((x0 + x1).fdiv 2 + 1) x1 y0 y0 (p / 4) v] := by
  have harea : ¬((x1 - x0 + 1) * (y0 - y0 + 1) ≤ 1) := by
    have : (2 : ℤ) * 1 ≤ (x1 - x0 + 1) * (y0 - y0 + 1) :=
      mul_le_mul (by omega) (by omega) (by omega) (by omega)
    omega
  have h1 := mid_ge x0 x1 (le_of_lt hx)
  have h2 := mid_lt x0 x1 hx
  simp [split_block_2d, mk_child, harea, h1, h2, mid_self y0,
    List.reduceOption, mid_le x0 x1 (le_of_lt hx)]
  omega

/-- C9: a well-formed leaf (`width ≥ 1`, `height ≥ 1`) with area strictly
greater than 1 always splits: the node becomes internal, at least 2
children survive (so the abandon-the-split branch is unreachable), with
exactly 4 children when both dimensions are ≥ 2 and exactly 2 children
when exactly one dimension is 1. -/
theorem split_block_2d_child_count (t : BlockNode2D)
    (hleaf : t.is_leaf = true) (hw : 1 ≤ t.width) (hh : 1 ≤ t.height)
    (harea : 1 < t.area) :
    (split_block_2d t).is_leaf = false ∧
    2 ≤ num_children (split_block_2d t) ∧
    (2 ≤ t.width → 2 ≤ t.height → num_children (split_block_2d t) = 4) ∧
    ((t.width = 1 ∨ t.height = 1) → num_children (split_block_2d t) = 2) := by
  cases t with
  | node x0 x1 y0 y1 p v cs => simp [BlockNode2D.is_leaf] at hleaf
  | leaf x0 x1 y0 y1 p v =>
      simp only [BlockNode2D.width, BlockNode2D.height, BlockNode2D.area,
        BlockNode2D.x_min, BlockNode2D.x_max, BlockNode2D.y_min,
        BlockNode2D.y_max] at hw hh harea ⊢
      rcases lt_or_eq_of_le (by omega : x0 ≤ x1) with hx | hx
      · rcases lt_or_eq_of_le (by omega : y0 ≤ y1) with hy | hy
        · rw [split_eq_four x0 x1 y0 y1 p v hx hy]
          refine ⟨rfl, by simp [num_children], by intro _ _; simp [num_children], ?_⟩
          intro h
          omega
        · subst hy
          rw [split_eq_two_wide x0 x1 y0 p v hx]
          exact ⟨rfl, by simp [num_children], by intro _ h2; omega,
            by intro _; simp [num_children]⟩
      · subst hx
        rcases lt_or_eq_of_le (by omega : y0 ≤ y1) with hy | hy
        · rw [split_eq_two_tall x0 y0 y1 p v hy]
          exact ⟨rfl, by simp [num_children], by intro h1 _; omega,
            by intro _; simp [num_children]⟩
        · subst hy
          have : (x0 - x0 + 1) * (y0 - y0 + 1) = 1 := by ring
          omega

/-- C1 (amended): when a split actually fires on a well-formed leaf,
the masses of the surviving children sum to the parent's mass only in the
4-children case; when 2 children survive (exactly one dimension is 1) they
sum to half the parent's mass, because the code divides by 4
unconditionally. -/
theorem split_block_2d_mass (t : BlockNode2D)
    (hleaf : t.is_leaf = true) (hw : 1 ≤ t.width) (hh : 1 ≤ t.height)
    (harea : 1 < t.area) :
    (2 ≤ t.width → 2 ≤ t.height → sum_tree_2d (split_block_2d t) = t.prob) ∧
    ((t.width = 1 ∨ t.height = 1) →
      sum_tree_2d (split_block_2d t) = t.prob / 2) := by
  cases t with
  | node x0 x1 y0 y1 p v cs => simp [BlockNode2D.is_leaf] at hleaf
  | leaf x0 x1 y0 y1 p v =>
      simp only [BlockNode2D.width, BlockNode2D.height, BlockNode2D.area,
        BlockNode2D.x_min, BlockNode2D.x_max, BlockNode2D.y_min,
        BlockNode2D.y_max, BlockNode2D.prob] at hw hh harea ⊢
      rcases lt_or_eq_of_le (by omega : x0 ≤ x1) with hx | hx
      · rcases lt_or_eq_of_le (by omega : y0 ≤ y1) with hy | hy
        · rw [split_eq_four x0 x1 y0 y1 p v hx hy]
          constructor
          · intro _ _
            simp [sum_tree_2d, sum_children_2d]
            ring
          · intro h
            omega
        · subst hy
          rw [split_eq_two_wide x0 x1 y0 p v hx]
          constructor
          · intro _ h2
            omega
          · intro _
            simp [sum_tree_2d, sum_children_2d]
            ring
      · subst hx
        rcases lt_or_eq_of_le (by omega : y0 ≤ y1) with hy | hy
        · rw [split_eq_two_tall x0 y0 y1 p v hy]
          constructor
          · intro h1 _
            omega
          · intro _
            simp [sum_tree_2d, sum_children_2d]
            ring
        · subst hy
          have : (x0 - x0 + 1) * (y0 - y0 + 1) = 1 := by ring
          omega

/-- C1 (counterexample): the 1×2 leaf `[0,0] × [0,1]` with mass 1 does
split (2 children survive, the node becomes internal), but the surviving
children's masses sum to `1/2`, not to the parent's mass 1 — the split is
not mass-conserving when fewer than 4 children survive. -/
theorem split_block_2d_mass_counterexample :
    (split_block_2d (.leaf 0 0 0 1 1 100)).is_leaf = false ∧
    sum_tree_2d (split_block_2d (.leaf 0 0 0 1 1 100))
      ≠ (BlockNode2D.leaf 0 0 0 1 1 100).prob := by
  rw [split_eq_two_tall 0 0 1 1 100 (by norm_num)]
  constructor
  · rfl
  · simp [sum_tree_2d, sum_children_2d, BlockNode2D.prob]
    norm_num

/-! ### Leaf enumeration order -/

/-- C3 (amended): the leaf enumeration is exactly the pre-order traversal
of the tree visiting children in their stored order (bottom-left,
bottom-right, top-left, top-right as created by `split_block_2d`); it is
not in general ascending by `(x_min, y_min)`. -/
theorem get_leaves_2d_is_preorder (t : BlockNode2D) :
    get_leaves t = leaves_in_order t :=
  get_leaves_eq_leaves_in_order t

/-- C3 (counterexample): enumerating the leaves of the split of the 2×2
block `[0,1] × [0,1]` yields bottom-left, bottom-right, top-left,
top-right, i.e. `(0,0), (1,0), (0,1), (1,1)` — and `(1,0)` is
lexicographically greater than the following `(0,1)`, so the sequence is
not ascending by `(x_min, y_min)`. -/
theorem get_leaves_not_ascending :
    ¬ ascending_by_xy (get_leaves (split_block_2d (.leaf 0 1 0 1 1 100))) := by
  rw [split_eq_four 0 1 0 1 1 100 (by norm_num) (by norm_num)]
  have hm : ((0 : ℤ) + 1).fdiv 2 = 0 := by decide
  rw [hm]
  intro hasc
  simp [get_leaves, get_leaves_2d, get_leaves_children_2d, ascending_by_xy,
    List.chain'_cons, lex_le, BlockNode2D.x_min, BlockNode2D.y_min] at hasc

/-! ### Vantage monotonicity of each operation -/

theorem vantage_mono_refl (t : BlockNode2D) : vantage_mono t t := by
  intro p v v' h h'
  rw [h] at h'
  exact le_of_eq (Option.some.inj h')

theorem vantage_mono_of_eq (t t' : BlockNode2D) (h : t = t') :
    vantage_mono t t' := by
  subst h
  exact vantage_mono_refl t

theorem vantage_mono_set_probability (t : BlockNode2D) (q : ℚ) :
    vantage_mono t (set_probability_2d t q) := by
  intro p v v' h h'
  cases t with
  | leaf x0 x1 y0 y1 p0 v0 =>
      cases p with
      | nil =>
          simp [vantage_at, BlockNode2D.vantage] at h
          simp [vantage_at, set_probability_2d, BlockNode2D.vantage] at h'
          subst h
          subst h'
          exact refine_vantage_ge q v0
      | cons i rest => simp [vantage_at] at h
  | node x0 x1 y0 y1 p0 v0 cs =>
      cases p with
      | nil =>
          simp [vantage_at, BlockNode2D.vantage] at h
          simp [vantage_at, set_probability_2d, BlockNode2D.vantage] at h'
          subst h
          subst h'
          exact refine_vantage_ge q v0
      | cons i rest =>
          simp only [vantage_at, set_probability_2d] at h h'
          rw [h] at h'
          exact le_of_eq (Option.some.inj h')

theorem vantage_at_split_leaf_nil (x0 x1 y0 y1 : ℤ) (p : ℚ) (v : ℤ) :
    vantage_at (split_block_2d (.leaf x0 x1 y0 y1 p v)) [] = some v := by
  simp only [split_block_2d]
  split
  · simp [vantage_at, BlockNode2D.vantage]
  · split <;> simp [vantage_at, BlockNode2D.vantage]

theorem vantage_mono_split (t : BlockNode2D) :
    vantage_mono t (split_block_2d t) := by
  cases t with
  | node x0 x1 y0 y1 p v cs => exact vantage_mono_of_eq _ _ rfl
  | leaf x0 x1 y0 y1 p v =>
      intro pa va va' h h'
      cases pa with
      | nil =>
          simp [vantage_at, BlockNode2D.vantage] at h
          rw [vantage_at_split_leaf_nil] at h'
          simp at h'
          omega
      | cons i rest => simp [vantage_at] at h

theorem vantage_mono_merge (t : BlockNode2D) :
    vantage_mono t (merge_block_2d t) := by
  cases t with
  | leaf x0 x1 y0 y1 p v => exact vantage_mono_of_eq _ _ rfl
  | node x0 x1 y0 y1 p v cs =>
      intro pa va va' h h'
      cases pa with
      | nil =>
          simp [vantage_at, BlockNode2D.vantage] at h
          simp [merge_block_2d, vantage_at, BlockNode2D.vantage] at h'
          omega
      | cons i rest => simp [merge_block_2d, vantage_at] at h'

theorem scale_children_2d_get? (cs : List BlockNode2D) (f : ℚ) (i : ℕ) :
    (scale_children_2d cs f).get? i
      = (cs.get? i).map (fun c => scale_tree_2_2d c f) := by
  induction cs generalizing i with
  | nil => simp [scale_children_2d]
  | cons c rest ih =>
      cases i with
      | zero => simp [scale_children_2d]
      | succ k => simpa [scale_children_2d] using ih k

mutual
theorem vantage_mono_scale : ∀ (t : BlockNode2D) (f : ℚ),
    vantage_mono t (scale_tree_2_2d t f)
  | .leaf x0 x1 y0 y1 p v, f => by
      intro pa va va' h h'
      cases pa with
      | nil =>
          simp [vantage_at, BlockNode2D.vantage] at h
          simp [vantage_at, scale_tree_2_2d, BlockNode2D.vantage] at h'
          subst h
          subst h'
          exact refine_vantage_ge _ v
      | cons i rest => simp [vantage_at] at h
  | .node x0 x1 y0 y1 p v cs, f => by
      intro pa va va' h h'
      cases pa with
      | nil =>
          simp [vantage_at, scale_tree_2_2d, BlockNode2D.vantage] at h h'
          omega
      | cons i rest =>
          simp only [vantage_at, scale_tree_2_2d] at h h'
          rw [scale_children_2d_get?] at h'
          cases hc : cs.get? i with
          | none =>
              rw [hc] at h
              simp at h
          | some c =>
              rw [hc] at h h'
              simp only [Option.map_some'] at h'
              exact vantage_mono_scale_children cs f c (List.get?_mem hc)
                rest va va' h h'

theorem vantage_mono_scale_children : ∀ (cs : List BlockNode2D) (f : ℚ)
    (c : BlockNode2D), c ∈ cs → vantage_mono c (scale_tree_2_2d c f)
  | [], _, c => by
      intro hmem
      exact absurd hmem (List.not_mem_nil c)
  | c0 :: rest, f, c => by
      intro hmem
      rcases List.mem_cons.1 hmem with h | h
      · rw [h]
        exact vantage_mono_scale c0 f
      · exact vantage_mono_scale_children rest f c h
end

theorem vantage_mono_normalize (t : BlockNode2D) :
    vantage_mono t (normalize_tree_2d t) := by
  by_cases h : 0 < sum_tree_2d t ∧ sum_tree_2d t ≠ 1
  · have h1 : normalize_tree_2d t = scale_tree_2_2d t (1 / sum_tree_2d t) := by
      simp only [normalize_tree_2d, if_pos h]
    rw [h1]
    exact vantage_mono_scale t _
  · have h1 : normalize_tree_2d t = t := by
      simp only [normalize_tree_2d, if_neg h]
    rw [h1]
    exact vantage_mono_refl t

theorem adaptive_children_2d_get? (cs : List BlockNode2D) (st mt : ℚ) (i : ℕ) :
    (adaptive_children_2d cs st mt).get? i
      = (cs.get? i).map (fun c => adaptive_split_merge_2d c st mt) := by
  induction cs generalizing i with
  | nil => simp [adaptive_children_2d]
  | cons c rest ih =>
      cases i with
      | zero => simp [adaptive_children_2d]
      | succ k => simpa [adaptive_children_2d] using ih k

mutual
theorem vantage_mono_adaptive : ∀ (t : BlockNode2D) (st mt : ℚ),
    vantage_mono t (adaptive_split_merge_2d t st mt)
  | .leaf x0 x1 y0 y1 p v, st, mt => by
      simp only [adaptive_split_merge_2d]
      split
      · exact vantage_mono_split (.leaf x0 x1 y0 y1 p v)
      · exact vantage_mono_refl _
  | .node x0 x1 y0 y1 p v cs, st, mt => by
      intro pa va va' h h'
      simp only [adaptive_split_merge_2d] at h'
      cases pa with
      | nil =>
          simp [vantage_at, BlockNode2D.vantage] at h
          have hv' : va' = v := by
            split at h'
            · simp [merge_block_2d, vantage_at, BlockNode2D.vantage] at h'
              omega
            · simp [vantage_at, BlockNode2D.vantage] at h'
              omega
          omega
      | cons i rest =>
          split at h'
          · simp [merge_block_2d, vantage_at] at h'
          · simp only [vantage_at] at h h'
            rw [adaptive_children_2d_get?] at h'
            cases hc : cs.get? i with
            | none =>
                rw [hc] at h
                simp at h
            | some c =>
                rw [hc] at h h'
                simp only [Option.map_some'] at h'
                exact vantage_mono_adaptive_children cs st mt c
                  (List.get?_mem hc) rest va va' h h'

theorem vantage_mono_adaptive_children : ∀ (cs : List BlockNode2D)
    (st mt : ℚ) (c : BlockNode2D), c ∈ cs →
    vantage_mono c (adaptive_split_merge_2d c st mt)
  | [], _, _, c => by
      intro hmem
      exact absurd hmem (List.not_mem_nil c)
  | c0 :: rest, st, mt, c => by
      intro hmem
      rcases List.mem_cons.1 hmem with h | h
      · rw [h]
        exact vantage_mono_adaptive c0 st mt
      · exact vantage_mono_adaptive_children rest st mt c h
end

mutual
theorem vantage_mono_assign : ∀ (t : BlockNode2D) (ps : List ℚ),
    vantage_mono t (assign_probs_2d t ps).1
  | .leaf x0 x1 y0 y1 p v, ps => by
      match ps with
      | [] => exact vantage_mono_refl _
      | q :: rest => exact vantage_mono_set_probability (.leaf x0 x1 y0 y1 p v) q
  | .node x0 x1 y0 y1 p v cs, ps => by
      intro pa va va' h h'
      simp only [assign_probs_2d] at h'
      cases pa with
      | nil =>
          simp [vantage_at, BlockNode2D.vantage] at h h'
          omega
      | cons i rest =>
          simp only [vantage_at] at h h'
          cases hc : cs.get? i with
          | none =>
              rw [hc] at h
              simp at h
          | some c =>
              rw [hc] at h
              cases hc' : ((assign_children_2d cs ps).1).get? i with
              | none =>
                  rw [hc'] at h'
                  simp at h'
              | some c' =>
                  rw [hc'] at h'
                  exact vantage_mono_assign_children cs ps i c c' hc hc'
                    rest va va' h h'

theorem vantage_mono_assign_children : ∀ (cs : List BlockNode2D)
    (ps : List ℚ) (i : ℕ) (c c' : BlockNode2D),
    cs.get? i = some c → ((assign_children_2d cs ps).1).get? i = some c' →
    vantage_mono c c'
  | [], ps, i, c, c' => by
      intro h _
      simp at h
  | c0 :: rest, ps, i, c, c' => by
      intro h h'
      cases i with
      | zero =>
          simp only [List.get?] at h
          simp only [assign_children_2d, List.get?] at h'
          have hc : c = c0 := by
            simpa using h.symm
          have hc' : c' = (assign_probs_2d c0 ps).1 := by
            simpa using h'.symm
          rw [hc, hc']
          exact vantage_mono_assign c0 ps
      | succ k =>
          simp only [List.get?] at h
          simp only [assign_children_2d, List.get?] at h'
          exact vantage_mono_assign_children rest (assign_probs_2d c0 ps).2
            k c c' h h'
end

theorem vantage_mono_flow (t : BlockNode2D) (alpha : ℚ) (boundary : String) :
    vantage_mono t (flow_step_2d t alpha boundary) := by
  rw [flow_step_2d_eq]
  exact vantage_mono_assign t _

theorem vantage_mono_apply_op (op : CoreOp) (t : BlockNode2D) :
    vantage_mono t (apply_op op t) := by
  cases op with
  | setProb q => exact vantage_mono_set_probability t q
  | scaleBy f => exact vantage_mono_scale t f
  | normalizeOp => exact vantage_mono_normalize t
  | flowOp a bd => exact vantage_mono_flow t a bd
  | splitOp => exact vantage_mono_split t
  | mergeOp => exact vantage_mono_merge t
  | adaptiveOp st mt => exact vantage_mono_adaptive t st mt

theorem vantage_mono_apply_ops (ops : List CoreOp) (t : BlockNode2D)
    (p : List ℕ)
    (halive : ∀ k, k ≤ ops.length →
      (vantage_at (apply_ops (ops.take k) t) p).isSome = true) :
    ∀ v v', vantage_at t p = some v →
      vantage_at (apply_ops ops t) p = some v' → v ≤ v' := by
  induction ops generalizing t with
  | nil =>
      intro v v' h h'
      simp only [apply_ops, List.foldl_nil] at h'
      rw [h] at h'
      exact le_of_eq (Option.some.inj h')
  | cons op rest ih =>
      intro v v' h h'
      have h1 : (vantage_at (apply_op op t) p).isSome = true := by
        have := halive 1 (by simp)
        simpa [apply_ops] using this
      obtain ⟨v1, hv1⟩ := Option.isSome_iff_exists.1 h1
      have hle1 : v ≤ v1 := vantage_mono_apply_op op t p v v1 h hv1
      have halive' : ∀ k, k ≤ rest.length →
          (vantage_at (apply_ops (rest.take k) (apply_op op t)) p).isSome
            = true := by
        intro k hk
        have := halive (k + 1) (by simpa using Nat.succ_le_succ hk)
        simpa [apply_ops, List.take_succ_cons] using this
      have h2 : vantage_at (apply_ops rest (apply_op op t)) p = some v' := by
        simpa [apply_ops] using h'
      exact le_trans hle1 (ih (apply_op op t) halive' v1 v' hv1 h2)

/-! ### The refinement formula -/

theorem ceil_eq_fdiv_fmod (r : ℚ) :
    ⌈r⌉ = (if r.num.fmod (r.den : ℤ) ≠ 0 then r.num.fdiv (r.den : ℤ) + 1
           else r.num.fdiv (r.den : ℤ)) := by
  have hdenZ : (0 : ℤ) < (r.den : ℤ) := by exact_mod_cast r.pos
  have hid := Int.fmod_add_fdiv r.num (r.den : ℤ)
  have hm0 : 0 ≤ r.num.fmod (r.den : ℤ) := Int.fmod_nonneg' r.num hdenZ
  have hmlt : r.num.fmod (r.den : ℤ) < (r.den : ℤ) :=
    Int.fmod_lt_of_pos r.num hdenZ
  have hr : r = (r.num : ℚ) / ((r.den : ℕ) : ℚ) := (Rat.num_div_den r).symm
  by_cases hm' : r.num.fmod (r.den : ℤ) = 0
  · rw [if_neg (by simpa using hm')]
    have hnum : r.num = (r.den : ℤ) * r.num.fdiv (r.den : ℤ) := by omega
    have hZ1 : (r.num.fdiv (r.den : ℤ) - 1) * (r.den : ℤ) < r.num := by
      have hcomm : (r.num.fdiv (r.den : ℤ) - 1) * (r.den : ℤ)
          = (r.den : ℤ) * r.num.fdiv (r.den : ℤ) - (r.den : ℤ) := by ring
      linarith [hnum, hdenZ]
    have hZ2 : r.num ≤ r.num.fdiv (r.den : ℤ) * (r.den : ℤ) := by
      have hcomm : r.num.fdiv (r.den : ℤ) * (r.den : ℤ)
          = (r.den : ℤ) * r.num.fdiv (r.den : ℤ) := mul_comm _ _
      linarith [hnum]
    rw [Int.ceil_eq_iff]
    constructor
    · have hlt : ((r.num.fdiv (r.den : ℤ) - 1 : ℤ) : ℚ)
          < (r.num : ℚ) / ((r.den : ℕ) : ℚ) := by
        rw [lt_div_iff₀ (by exact_mod_cast hdenZ)]
        exact_mod_cast hZ1
      rw [← hr] at hlt
      push_cast at hlt ⊢
      linarith
    · have hle : (r.num : ℚ) / ((r.den : ℕ) : ℚ)
          ≤ ((r.num.fdiv (r.den : ℤ) : ℤ) : ℚ) := by
        rw [div_le_iff₀ (by exact_mod_cast hdenZ)]
        exact_mod_cast hZ2
      rw [← hr] at hle
      push_cast at hle ⊢
      linarith
  · rw [if_pos (by simpa using hm')]
    have hmpos : 0 < r.num.fmod (r.den : ℤ) := lt_of_le_of_ne hm0 (Ne.symm hm')
    have hZ1 : r.num.fdiv (r.den : ℤ) * (r.den : ℤ) < r.num := by
      have hcomm : r.num.fdiv (r.den : ℤ) * (r.den : ℤ)
          = (r.den : ℤ) * r.num.fdiv (r.den : ℤ) := mul_comm _ _
      linarith [hid]
    have hZ2 : r.num ≤ (r.num.fdiv (r.den : ℤ) + 1) * (r.den : ℤ) := by
      have hcomm : (r.num.fdiv (r.den : ℤ) + 1) * (r.den : ℤ)
          = (r.den : ℤ) * r.num.fdiv (r.den : ℤ) + (r.den : ℤ) := by ring
      linarith [hid, hmlt]
    rw [Int.ceil_eq_iff]
    constructor
    · have hlt : ((r.num.fdiv (r.den : ℤ) : ℤ) : ℚ)
          < (r.num : ℚ) / ((r.den : ℕ) : ℚ) := by
        rw [lt_div_iff₀ (by exact_mod_cast hdenZ)]
        exact_mod_cast hZ1
      rw [← hr] at hlt
      push_cast at hlt ⊢
      linarith
    · have hle : (r.num : ℚ) / ((r.den : ℕ) : ℚ)
          ≤ ((r.num.fdiv (r.den : ℤ) : ℤ) : ℚ) + 1 := by
        rw [div_le_iff₀ (by exact_mod_cast hdenZ)]
        exact_mod_cast hZ2
      rw [← hr] at hle
      push_cast at hle ⊢
      linarith

theorem refine_eq_of_fires (q : ℚ) (v : ℤ) (h0 : q ≠ 0) (h1 : q ≠ 1)
    (h2 : q < 1 / (v : ℚ)) :
    refine_vantage_if_needed_2d q v = max ⌈(1 / q : ℚ)⌉ (v + 1) := by
  simp only [refine_vantage_if_needed_2d,
    if_neg (by tauto : ¬(q = 0 ∨ q = 1)), if_pos h2]
  rw [ceil_eq_fdiv_fmod (1 / q)]

theorem refine_gt_of_fires (q : ℚ) (v : ℤ) (h0 : q ≠ 0) (h1 : q ≠ 1)
    (h2 : q < 1 / (v : ℚ)) : v < refine_vantage_if_needed_2d q v := by
  rw [refine_eq_of_fires q v h0 h1 h2]
  have := le_max_right ⌈(1 / q : ℚ)⌉ (v + 1)
  omega

theorem refine_zero (v : ℤ) : refine_vantage_if_needed_2d 0 v = v := by
  simp [refine_vantage_if_needed_2d]

theorem refine_one (v : ℤ) : refine_vantage_if_needed_2d 1 v = v := by
  simp [refine_vantage_if_needed_2d]

theorem refine_fires_iff (q : ℚ) (v : ℤ) (hq : 0 ≤ q) (hv : 1 ≤ v) :
    refine_vantage_if_needed_2d q v ≠ v ↔
      0 < q ∧ q < 1 ∧ q < 1 / (v : ℚ) := by
  have hvQ : (1 : ℚ) ≤ (v : ℚ) := by exact_mod_cast hv
  have hinv : 1 / (v : ℚ) ≤ 1 := by
    rw [div_le_one (by linarith)]
    exact hvQ
  constructor
  · intro hne
    by_cases h01 : q = 0 ∨ q = 1
    · exfalso
      apply hne
      simp only [refine_vantage_if_needed_2d, if_pos h01]
    · by_cases h2 : q < 1 / (v : ℚ)
      · have hq0 : 0 < q := lt_of_le_of_ne hq (by tauto)
        have hq1 : q < 1 := lt_of_lt_of_le h2 hinv
        exact ⟨hq0, hq1, h2⟩
      · exfalso
        apply hne
        simp only [refine_vantage_if_needed_2d, if_neg h01, if_neg h2]
  · rintro ⟨hq0, hq1, h2⟩
    have := refine_gt_of_fires q v (ne_of_gt hq0) (ne_of_lt hq1) h2
    omega

/-- C4: the vantage (precision bound) of a node never decreases across any
sequence of the core operations — along any child-index path that refers
to a live node at every intermediate step (so that it denotes the same
node object throughout), the vantage at the end is at least the vantage at
the start.  Refinement fires exactly for a mass strictly between 0 and 1
with `mass < 1/vantage` (for nonnegative mass and positive vantage), and
then the new vantage is `max ⌈1/mass⌉ (old+1)`, strictly larger than
before; masses of exactly 0 or 1 never trigger refinement. -/
theorem vantage_never_decreases :
    (∀ (ops : List CoreOp) (t : BlockNode2D) (p : List ℕ),
      (∀ k, k ≤ ops.length →
        (vantage_at (apply_ops (ops.take k) t) p).isSome = true) →
      ∀ v v', vantage_at t p = some v →
        vantage_at (apply_ops ops t) p = some v' → v ≤ v') ∧
    (∀ (q : ℚ) (v : ℤ), 0 ≤ q → 1 ≤ v →
      (refine_vantage_if_needed_2d q v ≠ v ↔
        0 < q ∧ q < 1 ∧ q < 1 / (v : ℚ)) ∧
      (0 < q → q < 1 → q < 1 / (v : ℚ) →
        refine_vantage_if_needed_2d q v = max ⌈(1 / q : ℚ)⌉ (v + 1) ∧
        v < refine_vantage_if_needed_2d q v)) ∧
    (∀ v : ℤ, refine_vantage_if_needed_2d 0 v = v ∧
      refine_vantage_if_needed_2d 1 v = v) := by
  refine ⟨vantage_mono_apply_ops, ?_, fun v => ⟨refine_zero v, refine_one v⟩⟩
  intro q v hq hv
  refine ⟨refine_fires_iff q v hq hv, ?_⟩
  intro h0 h1 h2
  exact ⟨refine_eq_of_fires q v (ne_of_gt h0) (ne_of_lt h1) h2,
    refine_gt_of_fires q v (ne_of_gt h0) (ne_of_lt h1) h2⟩

theorem vantage_never_decreases_witness :
    ((∀ k, k ≤ [CoreOp.mergeOp].length →
      (vantage_at (apply_ops ([CoreOp.mergeOp].take k)
        (.node 0 1 0 1 0 100 [.leaf 0 0 0 0 1 50])) []).isSome = true) ∧
      (100 : ℤ) ≤ 100) ∧
    ((0 : ℚ) ≤ 1 / 3 ∧ (1 : ℤ) ≤ 2 ∧ 0 < (1 / 3 : ℚ) ∧ (1 / 3 : ℚ) < 1 ∧
      (1 / 3 : ℚ) < 1 / ((2 : ℤ) : ℚ) ∧
      refine_vantage_if_needed_2d (1 / 3) 2
        = max ⌈(1 / (1 / 3 : ℚ) : ℚ)⌉ (2 + 1) ∧
      (2 : ℤ) < refine_vantage_if_needed_2d (1 / 3) 2) := by
  constructor
  · have halive : ∀ k, k ≤ [CoreOp.mergeOp].length →
        (vantage_at (apply_ops ([CoreOp.mergeOp].take k)
          (.node 0 1 0 1 0 100 [.leaf 0 0 0 0 1 50])) []).isSome = true := by
      intro k hk
      have hk01 : k = 0 ∨ k = 1 := by
        simp only [List.length_cons, List.length_nil] at hk
        omega
      rcases hk01 with rfl | rfl
      · rfl
      · rfl
    exact ⟨halive, vantage_never_decreases.1 [CoreOp.mergeOp] _ [] halive
      100 100 rfl rfl⟩
  · have h1 : (0 : ℚ) ≤ 1 / 3 := by norm_num
    have h2 : (1 : ℤ) ≤ 2 := by norm_num
    have h3 : (0 : ℚ) < 1 / 3 := by norm_num
    have h4 : (1 / 3 : ℚ) < 1 := by norm_num
    have h5 : (1 / 3 : ℚ) < 1 / ((2 : ℤ) : ℚ) := by norm_num
    have hmain := (vantage_never_decreases.2.1 (1 / 3) 2 h1 h2).2 h3 h4 h5
    exact ⟨h1, h2, h3, h4, h5, hmain.1, hmain.2⟩

/-! ### Concrete instances -/

theorem flow_step_open_mass_nonincreasing_witness :
    (∀ b ∈ get_leaves (.leaf 0 0 0 0 (3 / 10 : ℚ) 100), 0 ≤ b.prob) ∧
    (0 : ℚ) ≤ 1 / 10 ∧ (1 / 10 : ℚ) ≤ 1 ∧
    sum_tree_2d (flow_step_2d (.leaf 0 0 0 0 (3 / 10 : ℚ) 100) (1 / 10) "open")
      ≤ sum_tree_2d (.leaf 0 0 0 0 (3 / 10 : ℚ) 100) := by
  have hnn : ∀ b ∈ get_leaves (BlockNode2D.leaf 0 0 0 0 (3 / 10 : ℚ) 100),
      0 ≤ b.prob := by
    intro b hb
    simp only [get_leaves, get_leaves_2d, List.nil_append,
      List.mem_singleton] at hb
    subst hb
    norm_num [BlockNode2D.prob]
  exact ⟨hnn, by norm_num, by norm_num,
    flow_step_open_mass_nonincreasing _ _ hnn (by norm_num) (by norm_num)⟩

theorem flow_step_preserves_nonneg_witness :
    ("closed" = "open" ∨ "closed" = "closed") ∧
    (∀ b ∈ get_leaves (.leaf 0 0 0 0 (3 / 10 : ℚ) 100), 0 ≤ b.prob) ∧
    (0 : ℚ) ≤ 1 / 10 ∧ (1 / 10 : ℚ) ≤ 1 ∧
    (∀ b ∈ get_leaves
        (flow_step_2d (.leaf 0 0 0 0 (3 / 10 : ℚ) 100) (1 / 10) "closed"),
      0 ≤ b.prob) := by
  have hbd : "closed" = "open" ∨ "closed" = "closed" := Or.inr rfl
  have hnn : ∀ b ∈ get_leaves (BlockNode2D.leaf 0 0 0 0 (3 / 10 : ℚ) 100),
      0 ≤ b.prob := by
    intro b hb
    simp only [get_leaves, get_leaves_2d, List.nil_append,
      List.mem_singleton] at hb
    subst hb
    norm_num [BlockNode2D.prob]
  exact ⟨hbd, hnn, by norm_num, by norm_num,
    flow_step_preserves_nonneg _ _ _ hbd hnn (by norm_num) (by norm_num)⟩

theorem normalize_tree_2d_spec_witness :
    ((0 < sum_tree_2d (.leaf 0 0 0 0 (1 / 2 : ℚ) 100) ∧
        sum_tree_2d (.leaf 0 0 0 0 (1 / 2 : ℚ) 100) ≠ 1) ∧
      sum_tree_2d (normalize_tree_2d (.leaf 0 0 0 0 (1 / 2 : ℚ) 100)) = 1) ∧
    ((sum_tree_2d (.leaf 0 0 0 0 (1 : ℚ) 100) = 0 ∨
        sum_tree_2d (.leaf 0 0 0 0 (1 : ℚ) 100) = 1) ∧
      normalize_tree_2d (.leaf 0 0 0 0 (1 : ℚ) 100)
        = .leaf 0 0 0 0 (1 : ℚ) 100) := by
  have hA : 0 < sum_tree_2d (BlockNode2D.leaf 0 0 0 0 (1 / 2 : ℚ) 100) ∧
      sum_tree_2d (BlockNode2D.leaf 0 0 0 0 (1 / 2 : ℚ) 100) ≠ 1 := by
    norm_num [sum_tree_2d]
  have hB : sum_tree_2d (BlockNode2D.leaf 0 0 0 0 (1 : ℚ) 100) = 0 ∨
      sum_tree_2d (BlockNode2D.leaf 0 0 0 0 (1 : ℚ) 100) = 1 := by
    right
    norm_num [sum_tree_2d]
  exact ⟨⟨hA, ((normalize_tree_2d_spec _).1 hA).2.2⟩,
    ⟨hB, (normalize_tree_2d_spec _).2 hB⟩⟩

theorem merge_block_2d_spec_witness :
    ((BlockNode2D.leaf 0 0 0 0 (1 / 2 : ℚ) 7).is_leaf = true ∧
      merge_block_2d (.leaf 0 0 0 0 (1 / 2 : ℚ) 7)
        = .leaf 0 0 0 0 (1 / 2 : ℚ) 7) ∧
    ((BlockNode2D.node 0 1 0 0 0 100
        [.leaf 0 0 0 0 (1 / 4 : ℚ) 100, .leaf 1 1 0 0 (1 / 4 : ℚ) 100]).is_leaf
        = false ∧
      (merge_block_2d (.node 0 1 0 0 0 100
        [.leaf 0 0 0 0 (1 / 4 : ℚ) 100,
         .leaf 1 1 0 0 (1 / 4 : ℚ) 100])).is_leaf = true ∧
      (merge_block_2d (.node 0 1 0 0 0 100
        [.leaf 0 0 0 0 (1 / 4 : ℚ) 100, .leaf 1 1 0 0 (1 / 4 : ℚ) 100])).prob
        = sum_tree_2d (.node 0 1 0 0 0 100
            [.leaf 0 0 0 0 (1 / 4 : ℚ) 100, .leaf 1 1 0 0 (1 / 4 : ℚ) 100]) ∧
      sum_tree_2d (merge_block_2d (.node 0 1 0 0 0 100
        [.leaf 0 0 0 0 (1 / 4 : ℚ) 100, .leaf 1 1 0 0 (1 / 4 : ℚ) 100]))
        = sum_tree_2d (.node 0 1 0 0 0 100
            [.leaf 0 0 0 0 (1 / 4 : ℚ) 100,
             .leaf 1 1 0 0 (1 / 4 : ℚ) 100])) := by
  refine ⟨⟨rfl, (merge_block_2d_spec (.leaf 0 0 0 0 (1 / 2 : ℚ) 7)).1 rfl⟩,
    rfl, (merge_block_2d_spec (.node 0 1 0 0 0 100
      [.leaf 0 0 0 0 (1 / 4 : ℚ) 100, .leaf 1 1 0 0 (1 / 4 : ℚ) 100])).2 rfl⟩

theorem split_block_2d_child_count_witness :
    ((BlockNode2D.leaf 0 1 0 1 (1 : ℚ) 100).is_leaf = true ∧
      1 ≤ (BlockNode2D.leaf 0 1 0 1 (1 : ℚ) 100).width ∧
      1 ≤ (BlockNode2D.leaf 0 1 0 1 (1 : ℚ) 100).height ∧
      1 < (BlockNode2D.leaf 0 1 0 1 (1 : ℚ) 100).area) ∧
    (split_block_2d (.leaf 0 1 0 1 (1 : ℚ) 100)).is_leaf = false ∧
    num_children (split_block_2d (.leaf 0 1 0 1 (1 : ℚ) 100)) = 4 := by
  have hw : 1 ≤ (BlockNode2D.leaf 0 1 0 1 (1 : ℚ) 100).width := by decide
  have hh : 1 ≤ (BlockNode2D.leaf 0 1 0 1 (1 : ℚ) 100).height := by decide
  have ha : 1 < (BlockNode2D.leaf 0 1 0 1 (1 : ℚ) 100).area := by decide
  have hmain := split_block_2d_child_count (.leaf 0 1 0 1 (1 : ℚ) 100)
    rfl hw hh ha
  exact ⟨⟨rfl, hw, hh, ha⟩, hmain.1, hmain.2.2.1 (by decide) (by decide)⟩

theorem split_block_2d_mass_witness :
    ((BlockNode2D.leaf 0 1 0 1 (1 : ℚ) 100).is_leaf = true ∧
      1 ≤ (BlockNode2D.leaf 0 1 0 1 (1 : ℚ) 100).width ∧
      1 ≤ (BlockNode2D.leaf 0 1 0 1 (1 : ℚ) 100).height ∧
      1 < (BlockNode2D.leaf 0 1 0 1 (1 : ℚ) 100).area) ∧
    sum_tree_2d (split_block_2d (.leaf 0 1 0 1 (1 : ℚ) 100))
      = (BlockNode2D.leaf 0 1 0 1 (1 : ℚ) 100).prob := by
  have hw : 1 ≤ (BlockNode2D.leaf 0 1 0 1 (1 : ℚ) 100).width := by decide
  have hh : 1 ≤ (BlockNode2D.leaf 0 1 0 1 (1 : ℚ) 100).height := by decide
  have ha : 1 < (BlockNode2D.leaf 0 1 0 1 (1 : ℚ) 100).area := by decide
  exact ⟨⟨rfl, hw, hh, ha⟩,
    (split_block_2d_mass (.leaf 0 1 0 1 (1 : ℚ) 100) rfl hw hh ha).1
      (by decide) (by decide)⟩
